import Mathlib

/-!
Verification of the gonk repository (Smith-Waterman diagonal-profile aligner).

The repository has two variants of the same program:
* the constant-penalty variant (`gonk.go`): single score matrix, flat gap
  penalty `p`;
* the affine variant (`affine.go`): three coupled matrices (match state and
  two gap states) with gap-open/gap-extend penalties.

Sequences and file contents are modelled as lists of bytes (`List Nat`);
scores are `Int`.  The row-major fill loops of `populate` are modelled as
structural recursion: a row is computed left to right from the previous
(finished) row and the already-finished prefix of the current row, exactly
the data flow of the Go loops.
-/

set_option maxRecDepth 100000

namespace Gonk

/-- Go `maxScore` (both variants): start the accumulator at 0 and replace it
whenever a candidate score is larger, so the result is the maximum of 0 and
the candidates. -/
def maxScore (scores : List Int) : Int :=
  scores.foldl (fun m s => if m < s then s else m) 0

/-- Symbol-to-index map `baseInt` of the constant-penalty variant:
`'A'(65) ↦ 0, 'C'(67) ↦ 1, 'G'(71) ↦ 2, 'T'(84) ↦ 3, 'N'(78) ↦ 4`.
A Go map lookup yields the zero value 0 for any missing key, hence the
final `else 0`. -/
def baseIntC (b : Nat) : Nat :=
  if b = 65 then 0 else if b = 67 then 1 else if b = 71 then 2
  else if b = 84 then 3 else if b = 78 then 4 else 0

/-- Symbol-to-index map `baseInt` of the affine variant:
`'A' ↦ 0, 'C' ↦ 1, 'G' ↦ 2, 'T' ↦ 3`, missing keys ↦ 0. -/
def baseIntA (b : Nat) : Nat :=
  if b = 65 then 0 else if b = 67 then 1 else if b = 71 then 2
  else if b = 84 then 3 else 0

/-- Substitution table `scores` of the constant-penalty variant
(5 symbols: A, C, G, T, N). -/
def scoresC : List (List Int) :=
  [[5, -4, -4, -4, 0],
   [-4, 5, -4, -4, 0],
   [-4, -4, 5, -4, 0],
   [-4, -4, -4, 5, 0],
   [0, 0, 0, 0, 0]]

/-- Substitution table `scores` of the affine variant (4 symbols: A, C, G, T). -/
def scoresA : List (List Int) :=
  [[5, -4, -4, -4],
   [-4, 5, -4, -4],
   [-4, -4, 5, -4],
   [-4, -4, -4, 5]]

/-- Go `scores[baseInt[indA]][baseInt[indB]]` in the constant-penalty variant. -/
def subC (a b : Nat) : Int := (scoresC.getD (baseIntC a) []).getD (baseIntC b) 0

/-- Go `scores[baseInt[indA]][baseInt[indB]]` in the affine variant. -/
def subA (a b : Nat) : Int := (scoresA.getD (baseIntA a) []).getD (baseIntA b) 0

/-! ### Constant-penalty `populate`

`swRow prev i` is row `i` of the score matrix as filled by the inner `j`
loop, given the finished previous row `prev`; column 0 is never written and
stays 0.  The candidate list mirrors the Go array
`potential = [back, left, above, 0]` (`potential[3]` keeps its zero value). -/

/-- One row of the constant-penalty matrix fill (inner loop of `populate`). -/
def swRow (p : Int) (dflag : Bool) (A B : List Nat) (prev : Nat → Int)
    (i : Nat) : Nat → Int
  | 0 => 0
  | j + 1 =>
    if i = j + 1 ∧ dflag then 0
    else
      maxScore [prev j + subC (A.getD (i - 1) 0) (B.getD j 0),
                prev (j + 1) - p,
                swRow p dflag A B prev i j - p,
                0]

/-- All rows of the constant-penalty matrix (outer loop of `populate`);
row 0 is the zero boundary row left by `makeMatrix`. -/
def swMatRows (p : Int) (dflag : Bool) (A B : List Nat) : Nat → Nat → Int
  | 0 => fun _ => 0
  | i + 1 => swRow p dflag A B (swMatRows p dflag A B i) (i + 1)

/-- Cell `(i, j)` of the constant-penalty score matrix. -/
def swCell (p : Int) (dflag : Bool) (A B : List Nat) (i j : Nat) : Int :=
  swMatRows p dflag A B i j

/-! ### Affine `populate`

Each cell carries the triple `(matches, gapA, gapB)`.  In the Go source the
composite `maxScore(maxes)` is stored back into `matches[i][j]` at the end
of the cell, so every later read of `matches` sees the composite value; the
first component of the triple is therefore the composite. -/

/-- One row of the affine matrix fill: the triple
(composite `matches`, `gapA`, `gapB`) for each column of row `i`, given the
finished previous row `prev`.  Candidate orders mirror the Go `potential`
arrays for `k = 0, 1, 2`. -/
def affRow (go ge : Int) (dflag : Bool) (A B : List Nat)
    (prev : Nat → Int × Int × Int) (i : Nat) : Nat → Int × Int × Int
  | 0 => (0, 0, 0)
  | j + 1 =>
    if i = j + 1 ∧ dflag then (0, 0, 0)
    else
      let s := subA (A.getD (i - 1) 0) (B.getD j 0)
      let left := affRow go ge dflag A B prev i j
      let m0 := maxScore [(prev j).1 + s, (prev j).2.1 + s, (prev j).2.2 + s]
      let ga := maxScore [-go - ge + left.1, -ge + left.2.1, -go - ge + left.2.2]
      let gb := maxScore [-go - ge + (prev (j + 1)).1,
                          -go - ge + (prev (j + 1)).2.1,
                          -ge + (prev (j + 1)).2.2]
      (maxScore [m0, ga, gb], ga, gb)

/-- All rows of the affine fill; row 0 is the zero boundary. -/
def affRows (go ge : Int) (dflag : Bool) (A B : List Nat) :
    Nat → Nat → Int × Int × Int
  | 0 => fun _ => (0, 0, 0)
  | i + 1 => affRow go ge dflag A B (affRows go ge dflag A B i) (i + 1)

/-- Cell `(i, j)` of the affine composite matrix (`matches` after the
store-back of `maxScore(maxes)`). -/
def affC (go ge : Int) (dflag : Bool) (A B : List Nat) (i j : Nat) : Int :=
  (affRows go ge dflag A B i j).1

/-- Cell `(i, j)` of the affine `gapA` matrix. -/
def affGa (go ge : Int) (dflag : Bool) (A B : List Nat) (i j : Nat) : Int :=
  (affRows go ge dflag A B i j).2.1

/-- Cell `(i, j)` of the affine `gapB` matrix. -/
def affGb (go ge : Int) (dflag : Bool) (A B : List Nat) (i j : Nat) : Int :=
  (affRows go ge dflag A B i j).2.2

/-! ### Diagonal summation (`sums`, identical in both variants)

Go: `sums := make([]int, len(matches[0]))`, then for each row index `i`,
`for j := i; j < len(matches[0]); j++ { sums[j-i] += matches[i][j] }`. -/

/-- One update `sums[d] += v` of the accumulator array. -/
def addAt (acc : List Int) (d : Nat) (v : Int) : List Int :=
  acc.set d (acc.getD d 0 + v)

/-- Inner loop of `sums` for the row with index `i`:
`for j := i; j < cols; j++ { sums[j-i] += row[j] }`. -/
def sumsRow (row : List Int) (i cols : Nat) (acc : List Int) : List Int :=
  (List.range' i (cols - i)).foldl (fun a j => addAt a (j - i) (row.getD j 0)) acc

/-- Outer loop of `sums`: rows in order, with running row index `i`. -/
def sumsAux (cols : Nat) : List (List Int) → Nat → List Int → List Int
  | [], _, acc => acc
  | row :: rest, i, acc => sumsAux cols rest (i + 1) (sumsRow row i cols acc)

/-- Go `sums`: the diagonal profile of a score matrix.  The accumulator is
`make([]int, len(matches[0]))`, i.e. `len(matches[0])` zeros. -/
def sums (mtx : List (List Int)) : List Int :=
  sumsAux (mtx.headD []).length mtx 0 (List.replicate (mtx.headD []).length 0)

/-! ### FASTA parsing

File contents are byte lists.  Both variants run the same per-line loop:
skip empty lines, a line starting with `'>'`(62) opens a new record, any
other line is appended to the sequence of the last record — which is a
runtime panic (modelled as `none`) when no record exists yet. -/

/-- A FASTA record: Go `type fasta struct { header, seq string }`. -/
structure Fasta where
  header : List Nat
  seq : List Nat
deriving DecidableEq

/-- Go `add_seq`: append a line to the record's sequence. -/
def addSeq (fa : Fasta) (sequence : List Nat) : Fasta :=
  { fa with seq := fa.seq ++ sequence }

/-- The shared per-line body of `readFasta` / `fasta_reader`.  `none` models
the index-out-of-range panic of `seqs[len(seqs)-1]` on an empty slice. -/
def processLine (seqs : List Fasta) (line : List Nat) : Option (List Fasta) :=
  if line = [] then some seqs
  else if line.headD 0 = 62 then some (seqs ++ [⟨line.drop 1, []⟩])
  else
    match seqs.getLast? with
    | none => none
    | some last => some (seqs.dropLast ++ [addSeq last line])

/-- Run the per-line loop over a list of lines, starting from no records. -/
def processLines (lines : List (List Nat)) : Option (List Fasta) :=
  lines.foldl (fun acc line => acc.bind (fun s => processLine s line)) (some [])

/-- Split a byte stream at `'\n'`(10): the list of newline-terminated chunks
(with the terminator removed, as `TrimSuffix` does) and the trailing
remainder after the last newline. -/
def splitNl : List Nat → List (List Nat) × List Nat
  | [] => ([], [])
  | b :: rest =>
    let r := splitNl rest
    if b = 10 then ([] :: r.1, r.2)
    else
      match r.1 with
      | [] => ([], b :: r.2)
      | l :: ls => ((b :: l) :: ls, r.2)

/-- Constant-penalty variant `readFasta`: `bufio.Reader.ReadString('\n')`
returns the trailing unterminated chunk together with `io.EOF`, and the loop
breaks on `io.EOF` before using it — so only the newline-terminated lines
are ever processed. -/
def readFasta (content : List Nat) : Option (List Fasta) :=
  processLines (splitNl content).1

/-- `bufio.ScanLines` drops one trailing `'\r'`(13) from a line. -/
def dropCR (l : List Nat) : List Nat :=
  if l.getLast? = some 13 then l.dropLast else l

/-- The token stream of a `bufio.Scanner` with the default `ScanLines` split:
every newline-terminated line (carriage return stripped), plus the final
unterminated chunk when it is nonempty. -/
def scannerLines (content : List Nat) : List (List Nat) :=
  (splitNl content).1.map dropCR ++
    (if (splitNl content).2 = [] then [] else [dropCR (splitNl content).2])

/-- Affine variant `fasta_reader`, built on `bufio.Scanner`. -/
def fastaReader (content : List Nat) : Option (List Fasta) :=
  processLines (scannerLines content)

/-! ### The two `main` pipelines (up to the profile that gets written) -/

/-- The constant-penalty score matrix as the `(n+1) × (m+1)` array built by
`makeMatrix` and filled by `populate`. -/
def swMatrix (p : Int) (dflag : Bool) (A B : List Nat) : List (List Int) :=
  (List.range (A.length + 1)).map fun i =>
    (List.range (B.length + 1)).map fun j => swCell p dflag A B i j

/-- The affine composite matrix (`matches` as returned by `populate`). -/
def affMatrix (go ge : Int) (dflag : Bool) (A B : List Nat) : List (List Int) :=
  (List.range (A.length + 1)).map fun i =>
    (List.range (B.length + 1)).map fun j => affC go ge dflag A B i j

/-- Constant-penalty `main` from the two parsed files to the profile that
`writeScores` receives: `readFasta(seqA)[0].seq` panics (`none`) when a file
parses to zero records. -/
def runConst (fileA fileB : List Nat) (p : Int) (dflag : Bool) :
    Option (List Int) :=
  (readFasta fileA).bind fun recsA =>
    recsA.head?.bind fun fa =>
      (readFasta fileB).bind fun recsB =>
        recsB.head?.bind fun fb =>
          some (sums (swMatrix p dflag fa.seq fb.seq))

/-- Affine `main` from the two parsed files to the profile. -/
def runAff (fileA fileB : List Nat) (go ge : Int) (dflag : Bool) :
    Option (List Int) :=
  (fastaReader fileA).bind fun recsA =>
    recsA.head?.bind fun fa =>
      (fastaReader fileB).bind fun recsB =>
        recsB.head?.bind fun fb =>
          some (sums (affMatrix go ge dflag fa.seq fb.seq))

example : sums [[1, 2], [3, 4]] = [1 + 4, 2] := by decide
example : sums [[1, 2, 3]] = [1, 2, 3] := by decide
example : readFasta [62, 104, 10, 65, 67, 10, 62, 120] = some [⟨[104], [65, 67]⟩] := by decide
example : readFasta [62, 104, 10, 65, 67, 10, 62, 120, 10] =
    some [⟨[104], [65, 67]⟩, ⟨[120], []⟩] := by decide
example : fastaReader [62, 104, 10, 65, 67, 10, 62, 120] =
    some [⟨[104], [65, 67]⟩, ⟨[120], []⟩] := by decide
example : fastaReader [65, 67] = none := by decide
example : readFasta [] = some [] := by decide
example : runConst [] [] 25 false = none := by decide

example : swCell 25 false [65, 67, 71, 84] [65, 67, 71, 84] 4 4 = 20 := by decide
example : swCell 25 false [65, 67, 71, 84] [65, 67, 71, 84] 1 1 = 5 := by decide
example : affC 25 1 false [65, 67, 71, 84] [65, 67, 71, 84] 4 4 = 20 := by decide
example : affC 1 0 false [65] [65, 67, 67] 1 3 = 4 := by decide
example : swCell 1 false [65] [65, 67, 67] 1 3 = 3 := by decide

/-! ### Helper lemmas about `maxScore` -/

theorem foldl_max_ge (l : List Int) :
    ∀ acc : Int, acc ≤ l.foldl (fun m s => if m < s then s else m) acc := by
  induction l with
  | nil => intro acc; exact le_refl acc
  | cons a l ih =>
    intro acc
    refine le_trans ?_ (ih (if acc < a then a else acc))
    split <;> omega

theorem maxScore_nonneg (l : List Int) : 0 ≤ maxScore l :=
  foldl_max_ge l 0

theorem maxScore_three (a b c : Int) :
    maxScore [a, b, c] = max 0 (max a (max b c)) := by
  simp only [maxScore, List.foldl, max_def]
  split_ifs <;> omega

theorem maxScore_four (a b c : Int) :
    maxScore [a, b, c, 0] = max 0 (max a (max b c)) := by
  simp only [maxScore, List.foldl, max_def]
  split_ifs <;> omega

/-! ### Boundary rows and columns -/

theorem swCell_row_zero (p : Int) (dflag : Bool) (A B : List Nat) (j : Nat) :
    swCell p dflag A B 0 j = 0 := rfl

theorem swCell_col_zero (p : Int) (dflag : Bool) (A B : List Nat) (i : Nat) :
    swCell p dflag A B i 0 = 0 := by
  cases i <;> rfl

theorem affRows_row_zero (go ge : Int) (dflag : Bool) (A B : List Nat) (j : Nat) :
    affRows go ge dflag A B 0 j = (0, 0, 0) := rfl

theorem affRows_col_zero (go ge : Int) (dflag : Bool) (A B : List Nat) (i : Nat) :
    affRows go ge dflag A B i 0 = (0, 0, 0) := by
  cases i <;> rfl

/-- C3: in the constant-penalty builder, every in-range cell not excluded by
the diagonal flag equals
`max(0, M[i-1][j-1] + substitution(seqA[i], seqB[j]), M[i-1][j] - p, M[i][j-1] - p)`,
and row 0 and column 0 of the result are always 0. -/
theorem sw_cell_recurrence (p : Int) (dflag : Bool) (A B : List Nat) (i j : Nat)
    (hi1 : 1 ≤ i) (hin : i ≤ A.length) (hj1 : 1 ≤ j) (hjm : j ≤ B.length)
    (hd : ¬(i = j ∧ dflag = true)) :
    swCell p dflag A B i j =
      max 0 (max
        (swCell p dflag A B (i - 1) (j - 1) + subC (A.getD (i - 1) 0) (B.getD (j - 1) 0))
        (max (swCell p dflag A B (i - 1) j - p) (swCell p dflag A B i (j - 1) - p)))
    ∧ (∀ j', swCell p dflag A B 0 j' = 0)
    ∧ (∀ i', swCell p dflag A B i' 0 = 0) := by
  obtain ⟨i, rfl⟩ : ∃ i', i = i' + 1 := ⟨i - 1, by omega⟩
  obtain ⟨j, rfl⟩ : ∃ j', j = j' + 1 := ⟨j - 1, by omega⟩
  refine ⟨?_, fun j' => swCell_row_zero p dflag A B j',
    fun i' => swCell_col_zero p dflag A B i'⟩
  show swRow p dflag A B (swMatRows p dflag A B i) (i + 1) (j + 1) = _
  rw [swRow, if_neg hd, maxScore_four]
  simp only [Nat.add_sub_cancel]
  rfl

/-- C7: with the diagonal-exclusion flag set, cell `(i,i)` of the constant
matrix and of the affine composite matrix is exactly 0 for every
`1 ≤ i ≤ min n m`, for all sequences and penalties. -/
theorem diag_flag_zeroes_diagonal (p go ge : Int) (A B : List Nat) (i : Nat)
    (h1 : 1 ≤ i) (h2 : i ≤ min A.length B.length) :
    swCell p true A B i i = 0 ∧ affC go ge true A B i i = 0 := by
  obtain ⟨i, rfl⟩ : ∃ i', i = i' + 1 := ⟨i - 1, by omega⟩
  constructor
  · show swRow p true A B (swMatRows p true A B i) (i + 1) (i + 1) = 0
    rw [swRow, if_pos ⟨rfl, rfl⟩]
  · show (affRow go ge true A B (affRows go ge true A B i) (i + 1) (i + 1)).1 = 0
    rw [affRow, if_pos ⟨rfl, rfl⟩]

theorem swCell_nonneg (p : Int) (dflag : Bool) (A B : List Nat) (i j : Nat) :
    0 ≤ swCell p dflag A B i j := by
  cases i with
  | zero => exact le_refl 0
  | succ i =>
    cases j with
    | zero => exact le_of_eq (swCell_col_zero p dflag A B (i + 1)).symm
    | succ j =>
      show 0 ≤ swRow p dflag A B (swMatRows p dflag A B i) (i + 1) (j + 1)
      simp only [swRow]
      split
      · exact le_refl 0
      · exact maxScore_nonneg _

theorem affRows_nonneg (go ge : Int) (dflag : Bool) (A B : List Nat) (i j : Nat) :
    0 ≤ (affRows go ge dflag A B i j).1 ∧ 0 ≤ (affRows go ge dflag A B i j).2.1 ∧
    0 ≤ (affRows go ge dflag A B i j).2.2 := by
  cases i with
  | zero => exact ⟨le_refl 0, le_refl 0, le_refl 0⟩
  | succ i =>
    cases j with
    | zero =>
      rw [affRows_col_zero]
      exact ⟨le_refl 0, le_refl 0, le_refl 0⟩
    | succ j =>
      show 0 ≤ (affRow go ge dflag A B (affRows go ge dflag A B i) (i + 1) (j + 1)).1 ∧
        0 ≤ (affRow go ge dflag A B (affRows go ge dflag A B i) (i + 1) (j + 1)).2.1 ∧
        0 ≤ (affRow go ge dflag A B (affRows go ge dflag A B i) (i + 1) (j + 1)).2.2
      simp only [affRow]
      by_cases hc : i + 1 = j + 1 ∧ dflag = true
      · rw [if_pos hc]
        exact ⟨le_refl 0, le_refl 0, le_refl 0⟩
      · rw [if_neg hc]
        exact ⟨maxScore_nonneg _, maxScore_nonneg _, maxScore_nonneg _⟩

/-! ### Max-algebra helpers -/

theorem max_zero_absorb {a x : Int} (ha : 0 ≤ a) : max 0 (max a x) = max a x :=
  max_eq_right (le_trans ha (le_max_left a x))

theorem neg_gap_add (go ge x : Int) : -go - ge + x = x - go - ge := by ring

theorem neg_ext_add (ge x : Int) : -ge + x = x - ge := by ring

/-- C2: in the affine builder, every in-range cell not excluded by the
diagonal flag satisfies the three-state Gotoh recurrences (with `M` holding
the stored-back composite value), and the value written into `M[i,j]` is
`max(M-state, Ga[i,j], Gb[i,j])`. -/
theorem aff_cell_recurrence (go ge : Int) (dflag : Bool) (A B : List Nat)
    (i j : Nat) (hi1 : 1 ≤ i) (hin : i ≤ A.length) (hj1 : 1 ≤ j)
    (hjm : j ≤ B.length) (hd : ¬(i = j ∧ dflag = true)) :
    affGa go ge dflag A B i j =
      max 0 (max (affC go ge dflag A B i (j - 1) - go - ge)
        (max (affGa go ge dflag A B i (j - 1) - ge)
             (affGb go ge dflag A B i (j - 1) - go - ge)))
    ∧ affGb go ge dflag A B i j =
      max 0 (max (affC go ge dflag A B (i - 1) j - go - ge)
        (max (affGa go ge dflag A B (i - 1) j - go - ge)
             (affGb go ge dflag A B (i - 1) j - ge)))
    ∧ affC go ge dflag A B i j =
      max (max 0 (max
          (affC go ge dflag A B (i - 1) (j - 1) +
            subA (A.getD (i - 1) 0) (B.getD (j - 1) 0))
          (max (affGa go ge dflag A B (i - 1) (j - 1) +
              subA (A.getD (i - 1) 0) (B.getD (j - 1) 0))
            (affGb go ge dflag A B (i - 1) (j - 1) +
              subA (A.getD (i - 1) 0) (B.getD (j - 1) 0)))))
        (max (affGa go ge dflag A B i j) (affGb go ge dflag A B i j)) := by
  obtain ⟨i, rfl⟩ : ∃ i', i = i' + 1 := ⟨i - 1, by omega⟩
  obtain ⟨j, rfl⟩ : ∃ j', j = j' + 1 := ⟨j - 1, by omega⟩
  simp only [Nat.add_sub_cancel]
  have key : affRows go ge dflag A B (i + 1) (j + 1) =
      (maxScore
        [maxScore
          [(affRows go ge dflag A B i j).1 + subA (A.getD i 0) (B.getD j 0),
           (affRows go ge dflag A B i j).2.1 + subA (A.getD i 0) (B.getD j 0),
           (affRows go ge dflag A B i j).2.2 + subA (A.getD i 0) (B.getD j 0)],
         maxScore
          [-go - ge + (affRows go ge dflag A B (i + 1) j).1,
           -ge + (affRows go ge dflag A B (i + 1) j).2.1,
           -go - ge + (affRows go ge dflag A B (i + 1) j).2.2],
         maxScore
          [-go - ge + (affRows go ge dflag A B i (j + 1)).1,
           -go - ge + (affRows go ge dflag A B i (j + 1)).2.1,
           -ge + (affRows go ge dflag A B i (j + 1)).2.2]],
       maxScore
        [-go - ge + (affRows go ge dflag A B (i + 1) j).1,
         -ge + (affRows go ge dflag A B (i + 1) j).2.1,
         -go - ge + (affRows go ge dflag A B (i + 1) j).2.2],
       maxScore
        [-go - ge + (affRows go ge dflag A B i (j + 1)).1,
         -go - ge + (affRows go ge dflag A B i (j + 1)).2.1,
         -ge + (affRows go ge dflag A B i (j + 1)).2.2]) := by
    show affRow go ge dflag A B (affRows go ge dflag A B i) (i + 1) (j + 1) = _
    simp only [affRow]
    rw [if_neg hd]
    simp only [Nat.add_sub_cancel]
    rfl
  refine ⟨?_, ?_, ?_⟩
  · show (affRows go ge dflag A B (i + 1) (j + 1)).2.1 = _
    rw [key]
    show maxScore [-go - ge + (affRows go ge dflag A B (i + 1) j).1,
      -ge + (affRows go ge dflag A B (i + 1) j).2.1,
      -go - ge + (affRows go ge dflag A B (i + 1) j).2.2] = _
    rw [maxScore_three]
    simp only [neg_gap_add, neg_ext_add]
    rfl
  · show (affRows go ge dflag A B (i + 1) (j + 1)).2.2 = _
    rw [key]
    show maxScore [-go - ge + (affRows go ge dflag A B i (j + 1)).1,
      -go - ge + (affRows go ge dflag A B i (j + 1)).2.1,
      -ge + (affRows go ge dflag A B i (j + 1)).2.2] = _
    rw [maxScore_three]
    simp only [neg_gap_add, neg_ext_add]
    rfl
  · show (affRows go ge dflag A B (i + 1) (j + 1)).1 =
      max _ (max (affRows go ge dflag A B (i + 1) (j + 1)).2.1
        (affRows go ge dflag A B (i + 1) (j + 1)).2.2)
    rw [key]
    show maxScore [maxScore _, maxScore _, maxScore _] = _
    rw [maxScore_three (maxScore _) (maxScore _) (maxScore _),
      max_zero_absorb (maxScore_nonneg _)]
    rw [maxScore_three ((affRows go ge dflag A B i j).1 + subA (A.getD i 0) (B.getD j 0))]
    rfl

/-- C4: every cell of the constant-penalty matrix and of all three affine
matrices (match/composite, gapA, gapB) is nonnegative, for every choice of
sequences, penalties and flags. -/
theorem matrix_cells_nonneg (p go ge : Int) (dflag : Bool) (A B : List Nat)
    (i j : Nat) :
    0 ≤ swCell p dflag A B i j ∧ 0 ≤ affC go ge dflag A B i j ∧
    0 ≤ affGa go ge dflag A B i j ∧ 0 ≤ affGb go ge dflag A B i j :=
  ⟨swCell_nonneg p dflag A B i j, (affRows_nonneg go ge dflag A B i j).1,
   (affRows_nonneg go ge dflag A B i j).2.1, (affRows_nonneg go ge dflag A B i j).2.2⟩

/-- Witness for `sw_cell_recurrence` at `p = 25`, `A = B = "A"`, `(i,j) = (1,1)`. -/
theorem sw_cell_recurrence_witness :
    ¬((1 : Nat) = 1 ∧ false = true) ∧
    swCell 25 false [65] [65] 1 1 =
      max 0 (max
        (swCell 25 false [65] [65] 0 0 + subC ([65].getD 0 0) ([65].getD 0 0))
        (max (swCell 25 false [65] [65] 0 1 - 25) (swCell 25 false [65] [65] 1 0 - 25))) :=
  ⟨by decide, (sw_cell_recurrence 25 false [65] [65] 1 1 (by decide) (by decide)
    (by decide) (by decide) (by decide)).1⟩

/-- Witness for `aff_cell_recurrence` at `go = 25`, `ge = 1`, `A = B = "A"`,
`(i,j) = (1,1)`. -/
theorem aff_cell_recurrence_witness :
    ¬((1 : Nat) = 1 ∧ false = true) ∧
    affGa 25 1 false [65] [65] 1 1 =
      max 0 (max (affC 25 1 false [65] [65] 1 0 - 25 - 1)
        (max (affGa 25 1 false [65] [65] 1 0 - 1)
             (affGb 25 1 false [65] [65] 1 0 - 25 - 1))) :=
  ⟨by decide, (aff_cell_recurrence 25 1 false [65] [65] 1 1 (by decide) (by decide)
    (by decide) (by decide) (by decide)).1⟩

/-- Witness for `diag_flag_zeroes_diagonal` at `i = 1`, `A = B = "A"`. -/
theorem diag_flag_zeroes_diagonal_witness :
    1 ≤ 1 ∧ 1 ≤ min ([65] : List Nat).length ([65] : List Nat).length ∧
    (swCell 25 true [65] [65] 1 1 = 0 ∧ affC 25 1 true [65] [65] 1 1 = 0) :=
  ⟨by decide, by decide,
    diag_flag_zeroes_diagonal 25 25 1 [65] [65] 1 (by decide) (by decide)⟩

/-- C9: a symbol outside the fixed symbol-to-index map (outside
`{A,C,G,T,N}` for the constant variant, outside `{A,C,G,T}` for the affine
variant) is looked up at the Go map's zero-value index 0, so it scores
exactly like `'A'`: +5 against A and -4 against C, G, T; no error is raised
(the lookup functions are total). -/
theorem unsupported_symbol_scored_as_A (c c' : Nat)
    (hC : c ∉ ([65, 67, 71, 84, 78] : List Nat))
    (hA : c' ∉ ([65, 67, 71, 84] : List Nat)) :
    baseIntC c = 0 ∧ baseIntA c' = 0 ∧
    (∀ d, subC c d = subC 65 d) ∧ (∀ d, subA c' d = subA 65 d) ∧
    subC c 65 = 5 ∧ subC c 67 = -4 ∧ subC c 71 = -4 ∧ subC c 84 = -4 ∧
    subA c' 65 = 5 ∧ subA c' 67 = -4 ∧ subA c' 71 = -4 ∧ subA c' 84 = -4 := by
  simp only [List.mem_cons, List.not_mem_nil, or_false, not_or] at hC hA
  obtain ⟨h1, h2, h3, h4, h5⟩ := hC
  obtain ⟨g1, g2, g3, g4⟩ := hA
  have hbc : baseIntC c = 0 := by simp [baseIntC, h1, h2, h3, h4, h5]
  have hba : baseIntA c' = 0 := by simp [baseIntA, g1, g2, g3, g4]
  have h65c : baseIntC 65 = 0 := by decide
  have h65a : baseIntA 65 = 0 := by decide
  have hsc : ∀ d, subC c d = subC 65 d := by
    intro d
    simp only [subC, hbc, h65c]
  have hsa : ∀ d, subA c' d = subA 65 d := by
    intro d
    simp only [subA, hba, h65a]
  exact ⟨hbc, hba, hsc, hsa,
    (hsc 65).trans (by decide), (hsc 67).trans (by decide),
    (hsc 71).trans (by decide), (hsc 84).trans (by decide),
    (hsa 65).trans (by decide), (hsa 67).trans (by decide),
    (hsa 71).trans (by decide), (hsa 84).trans (by decide)⟩

/-- Witness for `unsupported_symbol_scored_as_A` at `c = 'X'(88)` and
`c' = 'N'(78)` (N is absent from the affine map). -/
theorem unsupported_symbol_scored_as_A_witness :
    (88 : Nat) ∉ ([65, 67, 71, 84, 78] : List Nat) ∧
    (78 : Nat) ∉ ([65, 67, 71, 84] : List Nat) ∧
    (baseIntC 88 = 0 ∧ baseIntA 78 = 0 ∧
     (∀ d, subC 88 d = subC 65 d) ∧ (∀ d, subA 78 d = subA 65 d) ∧
     subC 88 65 = 5 ∧ subC 88 67 = -4 ∧ subC 88 71 = -4 ∧ subC 88 84 = -4 ∧
     subA 78 65 = 5 ∧ subA 78 67 = -4 ∧ subA 78 71 = -4 ∧ subA 78 84 = -4) :=
  ⟨by decide, by decide,
    unsupported_symbol_scored_as_A 88 78 (by decide) (by decide)⟩

/-- C8: if either input file parses to zero FASTA records, the run of either
variant aborts (`none`, modelling the fatal index-out-of-range panic of
`readFasta(seqA)[0]`) and produces no profile. -/
theorem zero_records_no_output (fileA fileB fileA2 fileB2 : List Nat)
    (p go ge : Int) (dflag dflag2 : Bool)
    (hc : readFasta fileA = some [] ∨ readFasta fileB = some [])
    (ha : fastaReader fileA2 = some [] ∨ fastaReader fileB2 = some []) :
    runConst fileA fileB p dflag = none ∧
    runAff fileA2 fileB2 go ge dflag2 = none := by
  constructor
  · rcases hc with h | h
    · simp [runConst, h]
    · cases hA : readFasta fileA with
      | none => simp [runConst, hA]
      | some recs =>
        cases recs with
        | nil => simp [runConst, hA]
        | cons r rs => simp [runConst, hA, h]
  · rcases ha with h | h
    · simp [runAff, h]
    · cases hA : fastaReader fileA2 with
      | none => simp [runAff, hA]
      | some recs =>
        cases recs with
        | nil => simp [runAff, hA]
        | cons r rs => simp [runAff, hA, h]

/-- Witness for `zero_records_no_output` at empty file contents (zero
records parsed). -/
theorem zero_records_no_output_witness :
    readFasta [] = some [] ∧ fastaReader [] = some [] ∧
    (runConst [] [] 25 false = none ∧ runAff [] [] 25 1 false = none) :=
  ⟨by decide, by decide,
    zero_records_no_output [] [] [] [] 25 25 1 false false
      (Or.inl (by decide)) (Or.inl (by decide))⟩

/-! ### Characterization of `sums` -/

theorem getD_set (l : List Int) (n m : Nat) (v : Int) :
    (l.set n v).getD m 0 = if n = m ∧ n < l.length then v else l.getD m 0 := by
  rw [List.getD_eq_getElem?_getD, List.getElem?_set, List.getD_eq_getElem?_getD]
  by_cases h1 : n = m
  · by_cases h2 : n < l.length
    · rw [if_pos h1, if_pos h2, if_pos ⟨h1, h2⟩, Option.getD_some]
    · rw [if_pos h1, if_neg h2, if_neg (fun hc => h2 hc.2), Option.getD_none,
        List.getElem?_eq_none (by omega), Option.getD_none]
  · rw [if_neg h1, if_neg (fun hc => h1 hc.1)]

theorem addAt_length (acc : List Int) (d : Nat) (v : Int) :
    (addAt acc d v).length = acc.length :=
  List.length_set acc d _

theorem sumsRow_length (row : List Int) (i cols : Nat) (acc : List Int) :
    (sumsRow row i cols acc).length = acc.length := by
  unfold sumsRow
  generalize List.range' i (cols - i) = js
  induction js generalizing acc with
  | nil => rfl
  | cons j js ih =>
    rw [List.foldl_cons, ih, addAt_length]

theorem sumsRow_loop_getD (row : List Int) (i d cols : Nat) :
    ∀ (k s : Nat) (acc : List Int), i ≤ s → acc.length = cols → d < cols →
      ((List.range' s k).foldl (fun a j => addAt a (j - i) (row.getD j 0)) acc).getD d 0 =
        acc.getD d 0 + (if s ≤ i + d ∧ i + d < s + k then row.getD (i + d) 0 else 0) := by
  intro k
  induction k with
  | zero =>
    intro s acc his hlen hd
    rw [List.range'_zero, List.foldl_nil, if_neg (by omega), add_zero]
  | succ k ih =>
    intro s acc his hlen hd
    rw [List.range'_succ, List.foldl_cons,
      ih (s + 1) _ (by omega) (by rw [addAt_length]; exact hlen) hd]
    rw [addAt, getD_set]
    by_cases he : i + d = s
    · rw [if_pos ⟨by omega, by omega⟩, if_neg (by omega), if_pos ⟨by omega, by omega⟩]
      subst he
      rw [Nat.add_sub_cancel_left]
      ring
    · rw [if_neg (by omega)]
      by_cases hc : s + 1 ≤ i + d ∧ i + d < s + 1 + k
      · rw [if_pos hc, if_pos (by omega)]
      · rw [if_neg hc, if_neg (by omega)]

theorem sumsRow_getD (row : List Int) (i cols d : Nat) (acc : List Int)
    (hlen : acc.length = cols) (hd : d < cols) :
    (sumsRow row i cols acc).getD d 0 =
      acc.getD d 0 + (if i + d < cols then row.getD (i + d) 0 else 0) := by
  unfold sumsRow
  rcases le_or_lt i cols with h | h
  · rw [sumsRow_loop_getD row i d cols (cols - i) i acc (le_refl i) hlen hd]
    congr 1
    by_cases hc : i + d < cols
    · rw [if_pos ⟨by omega, by omega⟩, if_pos hc]
    · rw [if_neg (by omega), if_neg hc]
  · rw [Nat.sub_eq_zero_of_le (le_of_lt h), List.range'_zero, List.foldl_nil,
      if_neg (by omega), add_zero]

theorem sumsAux_length (cols : Nat) (rows : List (List Int)) :
    ∀ (i : Nat) (acc : List Int), (sumsAux cols rows i acc).length = acc.length := by
  induction rows with
  | nil => intro i acc; rfl
  | cons row rest ih =>
    intro i acc
    show (sumsAux cols rest (i + 1) (sumsRow row i cols acc)).length = acc.length
    rw [ih, sumsRow_length]

theorem sumsAux_getD (cols d : Nat) (hd : d < cols) (rows : List (List Int)) :
    ∀ (i : Nat) (acc : List Int), acc.length = cols →
      (sumsAux cols rows i acc).getD d 0 =
        acc.getD d 0 + ∑ t in Finset.range rows.length,
          (if i + t + d < cols then (rows.getD t []).getD (i + t + d) 0 else 0) := by
  induction rows with
  | nil =>
    intro i acc _
    show acc.getD d 0 = _
    rw [List.length_nil, Finset.range_zero, Finset.sum_empty, add_zero]
  | cons row rest ih =>
    intro i acc hlen
    show (sumsAux cols rest (i + 1) (sumsRow row i cols acc)).getD d 0 = _
    rw [ih (i + 1) _ (by rw [sumsRow_length]; exact hlen),
      sumsRow_getD row i cols d acc hlen hd]
    have hsum : ∑ t in Finset.range rest.length,
        (if i + 1 + t + d < cols then (rest.getD t []).getD (i + 1 + t + d) 0 else 0) =
        ∑ t in Finset.range rest.length,
        (if i + (t + 1) + d < cols
          then (((row :: rest) : List (List Int)).getD (t + 1) []).getD (i + (t + 1) + d) 0
          else 0) := by
      refine Finset.sum_congr rfl fun t _ => ?_
      rw [List.getD_cons_succ, show i + (t + 1) + d = i + 1 + t + d from by omega]
    rw [hsum, List.length_cons, Finset.sum_range_succ']
    have hzero : (if i + 0 + d < cols
        then (((row :: rest) : List (List Int)).getD 0 []).getD (i + 0 + d) 0 else 0) =
        (if i + d < cols then row.getD (i + d) 0 else 0) := by
      rw [List.getD_cons_zero, show i + 0 + d = i + d from by omega]
    rw [hzero]
    ring

theorem sums_length (mtx : List (List Int)) :
    (sums mtx).length = (mtx.headD []).length := by
  rw [sums, sumsAux_length, List.length_replicate]

theorem sums_entry (mtx : List (List Int)) (d : Nat)
    (hd : d < (mtx.headD []).length) :
    (sums mtx).getD d 0 = ∑ t in Finset.range mtx.length,
      (if t + d < (mtx.headD []).length then (mtx.getD t []).getD (t + d) 0 else 0) := by
  rw [sums, sumsAux_getD _ _ hd _ 0 _ (List.length_replicate _ _)]
  rw [List.getD_eq_getElem?_getD, List.getElem?_replicate, if_pos hd, Option.getD_some,
    zero_add]
  refine Finset.sum_congr rfl fun t _ => ?_
  rw [show 0 + t + d = t + d from by omega]

/-- C5: for an `(n+1) × (m+1)` score matrix, the diagonal profile has length
exactly `m+1`, and entry `d ≤ m` is the sum of the cells `(t, t+d)` over all
`t ∈ [0, n]` with `t+d ≤ m`; cells below the main diagonal never contribute
and no offset is skipped. -/
theorem sums_profile_spec (mtx : List (List Int)) (n m : Nat)
    (hrows : mtx.length = n + 1) (hcols : ∀ row ∈ mtx, row.length = m + 1) :
    (sums mtx).length = m + 1 ∧
    ∀ d, d ≤ m → (sums mtx).getD d 0 =
      ∑ t in Finset.range (n + 1),
        (if t + d ≤ m then (mtx.getD t []).getD (t + d) 0 else 0) := by
  have hhead : (mtx.headD []).length = m + 1 := by
    cases mtx with
    | nil => simp at hrows
    | cons r rest => exact hcols r (by simp)
  constructor
  · rw [sums_length, hhead]
  · intro d hdm
    rw [sums_entry mtx d (by omega), hrows, hhead]
    refine Finset.sum_congr rfl fun t _ => ?_
    by_cases hc : t + d ≤ m
    · rw [if_pos (by omega), if_pos hc]
    · rw [if_neg (by omega), if_neg hc]

/-- Witness for `sums_profile_spec` on the concrete matrix `[[1,2],[3,4]]`
(`n = m = 1`): profile `[5, 2]`. -/
theorem sums_profile_spec_witness :
    ([[1, 2], [3, 4]] : List (List Int)).length = 1 + 1 ∧
    ((sums [[1, 2], [3, 4]]).length = 1 + 1 ∧
     ∀ d, d ≤ 1 → (sums [[1, 2], [3, 4]]).getD d 0 =
       ∑ t in Finset.range (1 + 1),
         (if t + d ≤ 1
           then (([[1, 2], [3, 4]] : List (List Int)).getD t []).getD (t + d) 0
           else 0)) :=
  ⟨by decide, sums_profile_spec [[1, 2], [3, 4]] 1 1 (by decide) (by decide)⟩

/-! ### Linearity of `sums` -/

theorem list_ext_getD (l1 l2 : List Int) (hlen : l1.length = l2.length)
    (h : ∀ k, k < l1.length → l1.getD k 0 = l2.getD k 0) : l1 = l2 := by
  refine List.ext_getElem? fun k => ?_
  by_cases hk : k < l1.length
  · rw [List.getElem?_eq_getElem hk, List.getElem?_eq_getElem (by omega)]
    have hke := h k hk
    rw [List.getD_eq_getElem _ _ hk, List.getD_eq_getElem _ _ (by omega)] at hke
    rw [hke]
  · rw [List.getElem?_eq_none (by omega), List.getElem?_eq_none (by omega)]

theorem getD_zipWith_add (a b : List Int) (k : Nat)
    (ha : k < a.length) (hb : k < b.length) :
    (List.zipWith (fun x y => x + y) a b).getD k 0 = a.getD k 0 + b.getD k 0 := by
  rw [List.getD_eq_getElem _ _ (by rw [List.length_zipWith]; omega),
    List.getElem_zipWith, List.getD_eq_getElem _ _ ha, List.getD_eq_getElem _ _ hb]

theorem getD_zipWith_rows (M1 M2 : List (List Int)) (t : Nat)
    (h1 : t < M1.length) (h2 : t < M2.length) :
    (List.zipWith (fun r1 r2 => List.zipWith (fun x y => x + y) r1 r2) M1 M2).getD t [] =
      List.zipWith (fun x y => x + y) (M1.getD t []) (M2.getD t []) := by
  rw [List.getD_eq_getElem _ _ (by rw [List.length_zipWith]; omega),
    List.getElem_zipWith, List.getD_eq_getElem _ _ h1, List.getD_eq_getElem _ _ h2]

/-- C6: diagonal summation is linear: the profile of the cell-wise sum of
two same-shape matrices equals the entry-wise sum of their profiles. -/
theorem sums_linear (M1 M2 : List (List Int)) (n m : Nat)
    (h1 : M1.length = n + 1) (h2 : M2.length = n + 1)
    (hc1 : ∀ row ∈ M1, row.length = m + 1) (hc2 : ∀ row ∈ M2, row.length = m + 1) :
    sums (List.zipWith (fun r1 r2 => List.zipWith (fun x y => x + y) r1 r2) M1 M2) =
      List.zipWith (fun x y => x + y) (sums M1) (sums M2) := by
  have hhead1 : (M1.headD []).length = m + 1 := by
    cases M1 with
    | nil => simp at h1
    | cons r rest => exact hc1 r (by simp)
  have hhead2 : (M2.headD []).length = m + 1 := by
    cases M2 with
    | nil => simp at h2
    | cons r rest => exact hc2 r (by simp)
  have hrow1 : ∀ t, t < n + 1 → (M1.getD t []).length = m + 1 := by
    intro t ht
    rw [List.getD_eq_getElem _ _ (by omega)]
    exact hc1 _ (List.getElem_mem (by omega))
  have hrow2 : ∀ t, t < n + 1 → (M2.getD t []).length = m + 1 := by
    intro t ht
    rw [List.getD_eq_getElem _ _ (by omega)]
    exact hc2 _ (List.getElem_mem (by omega))
  have hLadd :
      (List.zipWith (fun r1 r2 => List.zipWith (fun x y => x + y) r1 r2) M1 M2).length =
        n + 1 := by
    rw [List.length_zipWith, h1, h2, min_self]
  have hheadAdd :
      ((List.zipWith (fun r1 r2 => List.zipWith (fun x y => x + y) r1 r2) M1 M2).headD
        []).length = m + 1 := by
    cases M1 with
    | nil => simp at h1
    | cons r1 M1' =>
      cases M2 with
      | nil => simp at h2
      | cons r2 M2' =>
        show (List.zipWith (fun x y => x + y) r1 r2).length = m + 1
        rw [List.length_zipWith, hc1 r1 (by simp), hc2 r2 (by simp), min_self]
  have hlenL :
      (sums (List.zipWith (fun r1 r2 => List.zipWith (fun x y => x + y) r1 r2) M1 M2)).length
        = m + 1 := by rw [sums_length, hheadAdd]
  have hlen1 : (sums M1).length = m + 1 := by rw [sums_length, hhead1]
  have hlen2 : (sums M2).length = m + 1 := by rw [sums_length, hhead2]
  have hlenR :
      (List.zipWith (fun x y => x + y) (sums M1) (sums M2)).length = m + 1 := by
    rw [List.length_zipWith, hlen1, hlen2, min_self]
  have hentry : ∀ d, d < m + 1 →
      (sums (List.zipWith (fun r1 r2 => List.zipWith (fun x y => x + y) r1 r2) M1 M2)).getD
          d 0 = (sums M1).getD d 0 + (sums M2).getD d 0 := by
    intro d hd
    rw [sums_entry _ d (by omega), sums_entry M1 d (by omega), sums_entry M2 d (by omega),
      hLadd, h1, h2, hheadAdd, hhead1, hhead2]
    rw [← Finset.sum_add_distrib]
    refine Finset.sum_congr rfl fun t ht => ?_
    have htn : t < n + 1 := Finset.mem_range.mp ht
    rw [getD_zipWith_rows M1 M2 t (by omega) (by omega)]
    by_cases hc : t + d < m + 1
    · rw [if_pos hc, if_pos hc, if_pos hc,
        getD_zipWith_add _ _ _ (by rw [hrow1 t htn]; omega) (by rw [hrow2 t htn]; omega)]
    · rw [if_neg hc, if_neg hc, if_neg hc, add_zero]
  refine list_ext_getD _ _ (by rw [hlenL, hlenR]) fun k hk => ?_
  rw [hlenL] at hk
  rw [hentry k hk, getD_zipWith_add (sums M1) (sums M2) k (by omega) (by omega)]

/-- Witness for `sums_linear` on `[[1,2],[3,4]]` and `[[5,6],[7,8]]`
(`n = m = 1`). -/
theorem sums_linear_witness :
    ([[1, 2], [3, 4]] : List (List Int)).length = 1 + 1 ∧
    sums (List.zipWith (fun r1 r2 => List.zipWith (fun x y => x + y) r1 r2)
        [[1, 2], [3, 4]] [[5, 6], [7, 8]]) =
      List.zipWith (fun x y => x + y) (sums [[1, 2], [3, 4]]) (sums [[5, 6], [7, 8]]) :=
  ⟨by decide, sums_linear [[1, 2], [3, 4]] [[5, 6], [7, 8]] 1 1 (by decide) (by decide)
    (by decide) (by decide)⟩

/-! ### Degeneration of the affine model to the flat-penalty model

The affine recurrence charges `g_o + g_e` to open a gap and `g_e` to extend
it.  It reproduces the flat-penalty matrix exactly when `g_o = 0` and
`g_e = p` (every gap symbol then costs `p`).  With `g_o = p, g_e = 0`
(the pairing claimed in the spec) extensions are free, so the two builders
disagree as soon as a gap of length ≥ 2 is worthwhile. -/

/-- C1 is false as stated: with `g_o = p = 1`, `g_e = 0` the affine
composite matrix differs from the constant-penalty matrix with flat penalty
`p = 1` on sequences `A = "A"`, `B = "ACC"` at cell `(1,3)` (affine scores
4 because extending the gap is free; the flat model scores 3). -/
theorem affine_zero_extend_ne_const :
    affC 1 0 false [65] [65, 67, 67] 1 3 ≠ swCell 1 false [65] [65, 67, 67] 1 3 := by
  decide

theorem maxScore_three_le_first (a b c : Int) (hb : b ≤ a) (hc : c ≤ a) :
    maxScore [a, b, c] = max 0 a := by
  rw [maxScore_three, max_eq_left (max_le hb hc)]

theorem maxScore_three_ge_second (a b c : Int) : b ≤ maxScore [a, b, c] := by
  rw [maxScore_three]
  exact le_trans (le_trans (le_max_left b c) (le_max_right a _)) (le_max_right 0 _)

theorem maxScore_three_ge_third (a b c : Int) : c ≤ maxScore [a, b, c] := by
  rw [maxScore_three]
  exact le_trans (le_trans (le_max_right b c) (le_max_right a _)) (le_max_right 0 _)

theorem gap_simplify (p L Lga Lgb : Int) (hga : Lga ≤ L) (hgb : Lgb ≤ L) :
    maxScore [-(0 : Int) - p + L, -p + Lga, -(0 : Int) - p + Lgb] = max 0 (L - p) := by
  rw [maxScore_three_le_first _ _ _ (by omega) (by omega),
    show -(0 : Int) - p + L = L - p from by omega]

theorem gap_simplify2 (p U Uga Ugb : Int) (hga : Uga ≤ U) (hgb : Ugb ≤ U) :
    maxScore [-(0 : Int) - p + U, -(0 : Int) - p + Uga, -p + Ugb] = max 0 (U - p) := by
  rw [maxScore_three_le_first _ _ _ (by omega) (by omega),
    show -(0 : Int) - p + U = U - p from by omega]

theorem maxScore_max_zero (a b c : Int) :
    maxScore [max 0 a, max 0 b, max 0 c] = max 0 (max a (max c b)) := by
  rw [maxScore_three]
  simp only [max_def]
  split_ifs <;> omega

theorem sub_agree (x y : Nat) (hx : x ∈ ([0, 65, 67, 71, 84] : List Nat))
    (hy : y ∈ ([0, 65, 67, 71, 84] : List Nat)) : subA x y = subC x y := by
  fin_cases hx <;> fin_cases hy <;> decide

theorem getD_alphabet (A : List Nat)
    (hA : ∀ b ∈ A, b ∈ ([65, 67, 71, 84] : List Nat)) (k : Nat) :
    A.getD k 0 ∈ ([0, 65, 67, 71, 84] : List Nat) := by
  rcases lt_or_ge k A.length with h | h
  · have hm := hA _ (List.getElem_mem h)
    rw [List.getD_eq_getElem _ _ h]
    simp only [List.mem_cons, List.not_mem_nil, or_false] at hm ⊢
    tauto
  · rw [List.getD_eq_default _ _ h]
    simp

theorem affRow_flat (p : Int) (dflag : Bool) (A B : List Nat)
    (hA : ∀ b ∈ A, b ∈ ([65, 67, 71, 84] : List Nat))
    (hB : ∀ b ∈ B, b ∈ ([65, 67, 71, 84] : List Nat))
    (prev : Nat → Int × Int × Int) (prevS : Nat → Int) (i : Nat)
    (hprev : ∀ j, (prev j).1 = prevS j ∧ (prev j).2.1 ≤ (prev j).1 ∧
      (prev j).2.2 ≤ (prev j).1) :
    ∀ j, (affRow 0 p dflag A B prev i j).1 = swRow p dflag A B prevS i j ∧
      (affRow 0 p dflag A B prev i j).2.1 ≤ (affRow 0 p dflag A B prev i j).1 ∧
      (affRow 0 p dflag A B prev i j).2.2 ≤ (affRow 0 p dflag A B prev i j).1 := by
  intro j
  induction j with
  | zero => exact ⟨rfl, le_refl 0, le_refl 0⟩
  | succ j ih =>
    by_cases hc : i = j + 1 ∧ dflag = true
    · have ha : affRow 0 p dflag A B prev i (j + 1) = (0, 0, 0) := by
        simp only [affRow]
        rw [if_pos hc]
      have hs : swRow p dflag A B prevS i (j + 1) = 0 := by
        simp only [swRow]
        rw [if_pos hc]
      rw [ha, hs]
      exact ⟨rfl, le_refl 0, le_refl 0⟩
    · obtain ⟨ih1, ih2, ih3⟩ := ih
      obtain ⟨hp1, hp2, hp3⟩ := hprev j
      obtain ⟨hq1, hq2, hq3⟩ := hprev (j + 1)
      have hsub : subA (A.getD (i - 1) 0) (B.getD j 0) =
          subC (A.getD (i - 1) 0) (B.getD j 0) :=
        sub_agree _ _ (getD_alphabet A hA _) (getD_alphabet B hB _)
      have key : affRow 0 p dflag A B prev i (j + 1) =
          (maxScore
            [maxScore
              [(prev j).1 + subA (A.getD (i - 1) 0) (B.getD j 0),
               (prev j).2.1 + subA (A.getD (i - 1) 0) (B.getD j 0),
               (prev j).2.2 + subA (A.getD (i - 1) 0) (B.getD j 0)],
             maxScore
              [-(0 : Int) - p + (affRow 0 p dflag A B prev i j).1,
               -p + (affRow 0 p dflag A B prev i j).2.1,
               -(0 : Int) - p + (affRow 0 p dflag A B prev i j).2.2],
             maxScore
              [-(0 : Int) - p + (prev (j + 1)).1,
               -(0 : Int) - p + (prev (j + 1)).2.1,
               -p + (prev (j + 1)).2.2]],
           maxScore
            [-(0 : Int) - p + (affRow 0 p dflag A B prev i j).1,
             -p + (affRow 0 p dflag A B prev i j).2.1,
             -(0 : Int) - p + (affRow 0 p dflag A B prev i j).2.2],
           maxScore
            [-(0 : Int) - p + (prev (j + 1)).1,
             -(0 : Int) - p + (prev (j + 1)).2.1,
             -p + (prev (j + 1)).2.2]) := by
        simp only [affRow]
        rw [if_neg hc]
      have hs : swRow p dflag A B prevS i (j + 1) =
          maxScore [prevS j + subC (A.getD (i - 1) 0) (B.getD j 0),
            prevS (j + 1) - p, swRow p dflag A B prevS i j - p, 0] := by
        simp only [swRow]
        rw [if_neg hc]
      refine ⟨?_, ?_, ?_⟩
      · rw [key]
        show maxScore [maxScore _, maxScore _, maxScore _] = _
        rw [maxScore_three_le_first _ _ _ (add_le_add_right hp2 _) (add_le_add_right hp3 _),
          gap_simplify p _ _ _ ih2 ih3, gap_simplify2 p _ _ _ hq2 hq3,
          maxScore_max_zero, hs, maxScore_four, hp1, hq1, ih1, hsub]
      · rw [key]
        exact maxScore_three_ge_second _ _ _
      · rw [key]
        exact maxScore_three_ge_third _ _ _

theorem affRows_flat (p : Int) (dflag : Bool) (A B : List Nat)
    (hA : ∀ b ∈ A, b ∈ ([65, 67, 71, 84] : List Nat))
    (hB : ∀ b ∈ B, b ∈ ([65, 67, 71, 84] : List Nat)) :
    ∀ i j, (affRows 0 p dflag A B i j).1 = swMatRows p dflag A B i j ∧
      (affRows 0 p dflag A B i j).2.1 ≤ (affRows 0 p dflag A B i j).1 ∧
      (affRows 0 p dflag A B i j).2.2 ≤ (affRows 0 p dflag A B i j).1 := by
  intro i
  induction i with
  | zero => intro j; exact ⟨rfl, le_refl 0, le_refl 0⟩
  | succ i ih =>
    intro j
    exact affRow_flat p dflag A B hA hB (affRows 0 p dflag A B i)
      (swMatRows p dflag A B i) (i + 1) ih j

/-- C1 (amended): for sequences over the supported alphabet `{A,C,G,T}` and
any flat penalty `p ≥ 0`, the affine builder run with gap-open `g_o = 0` and
gap-extend `g_e = p` (so that every gap symbol costs `p`) produces a
composite matrix equal, cell for cell, to the constant-penalty builder's
matrix with flat penalty `p`. -/
theorem affine_zero_open_eq_const (p : Int) (dflag : Bool) (A B : List Nat)
    (_hp : 0 ≤ p)
    (hA : ∀ b ∈ A, b ∈ ([65, 67, 71, 84] : List Nat))
    (hB : ∀ b ∈ B, b ∈ ([65, 67, 71, 84] : List Nat)) (i j : Nat) :
    affC 0 p dflag A B i j = swCell p dflag A B i j :=
  (affRows_flat p dflag A B hA hB i j).1

/-- Witness for `affine_zero_open_eq_const` at `p = 1`, `A = "A"`,
`B = "ACC"`, cell `(1,3)` (the cell of the counterexample to the original
pairing). -/
theorem affine_zero_open_eq_const_witness :
    (0 : Int) ≤ 1 ∧ affC 0 1 false [65] [65, 67, 67] 1 3 =
      swCell 1 false [65] [65, 67, 67] 1 3 :=
  ⟨by decide, affine_zero_open_eq_const 1 false [65] [65, 67, 67] (by decide)
    (by decide) (by decide) 1 3⟩

/-! ### Handling of an unterminated final line by the two FASTA readers -/

theorem splitNl_append_newline (c : List Nat) :
    splitNl (c ++ [10]) = ((splitNl c).1 ++ [(splitNl c).2], []) := by
  induction c with
  | nil => rfl
  | cons b c ih =>
    rcases hsc : splitNl c with ⟨L, R⟩
    show splitNl (b :: (c ++ [10])) = ((splitNl (b :: c)).1 ++ [(splitNl (b :: c)).2], [])
    simp only [splitNl, hsc, ih]
    by_cases hb : b = 10
    · simp [hb]
    · simp only [if_neg hb]
      cases L with
      | nil => simp
      | cons l ls => simp

/-- C10 is false in its middle part: for the file `">h\nAC\n>x"` (whose
final line `">x"` is unterminated), `readFasta` does drop the final line,
but adding a trailing newline turns `">x"` into a new record's *header*;
no record's sequence includes that line. -/
theorem readFasta_trailing_newline_counterexample :
    readFasta [62, 104, 10, 65, 67, 10, 62, 120] = some [⟨[104], [65, 67]⟩] ∧
    readFasta [62, 104, 10, 65, 67, 10, 62, 120, 10] =
      some [⟨[104], [65, 67]⟩, ⟨[120], []⟩] ∧
    ¬ ([62, 120] : List Nat) <:+: [65, 67] ∧
    ¬ ([62, 120] : List Nat) <:+: ([] : List Nat) := by
  decide

/-- C10 (amended): for every input whose final line is unterminated,
`readFasta` (ReadString-based, constant variant) processes only the
newline-terminated lines, discarding the final line entirely; the same
content with a trailing newline added processes the final line like any
other line (header if it starts with `'>'`, otherwise appended to the last
record's sequence, skipped if empty, fatal if no record exists); and the
affine variant's scanner-based `fasta_reader` keeps the unterminated final
line (with a trailing carriage return stripped, as `ScanLines` does). -/
theorem final_line_handling (content : List Nat)
    (h : (splitNl content).2 ≠ []) :
    readFasta content = processLines (splitNl content).1 ∧
    readFasta (content ++ [10]) =
      processLines ((splitNl content).1 ++ [(splitNl content).2]) ∧
    fastaReader content =
      processLines ((splitNl content).1.map dropCR ++ [dropCR (splitNl content).2]) := by
  refine ⟨rfl, ?_, ?_⟩
  · rw [readFasta, splitNl_append_newline]
  · rw [fastaReader, scannerLines, if_neg h]

/-- Witness for `final_line_handling` at the file `">h\nAC\n>x"`. -/
theorem final_line_handling_witness :
    (splitNl [62, 104, 10, 65, 67, 10, 62, 120]).2 ≠ [] ∧
    (readFasta [62, 104, 10, 65, 67, 10, 62, 120] =
        processLines (splitNl [62, 104, 10, 65, 67, 10, 62, 120]).1 ∧
      readFasta ([62, 104, 10, 65, 67, 10, 62, 120] ++ [10]) =
        processLines ((splitNl [62, 104, 10, 65, 67, 10, 62, 120]).1 ++
          [(splitNl [62, 104, 10, 65, 67, 10, 62, 120]).2]) ∧
      fastaReader [62, 104, 10, 65, 67, 10, 62, 120] =
        processLines ((splitNl [62, 104, 10, 65, 67, 10, 62, 120]).1.map dropCR ++
          [dropCR (splitNl [62, 104, 10, 65, 67, 10, 62, 120]).2])) :=
  ⟨by decide, final_line_handling [62, 104, 10, 65, 67, 10, 62, 120] (by decide)⟩

end Gonk
